import Mathlib

/-!
Verification of the table-to-record extraction core of the useragents-me-json
repository, as a shallow embedding in Lean.

Strings are modelled as lists of characters (`Str`).  JavaScript objects with
string keys are modelled as association lists (`RecordOf`) whose insert
operation mirrors object-spread semantics: an existing key keeps its position
and gets the new value, a new key is appended.  DOM elements are modelled as a
tree node carrying `textContent`, `id` (the DOM id getter, which yields the
empty string when the attribute is missing) and a scoped `querySelectorAll`
function from selector strings to element lists; `querySelector` returns the
first match.  Character case mapping is modelled for ASCII.
-/

namespace UAMJson

abbrev Str := List Char

/-- A JavaScript object with string keys, as an association list in property
insertion order. -/
abbrev RecordOf (α : Type) := List (Str × α)

abbrev Record := RecordOf Str

/-- Object-spread update: if the key is present, its value is replaced in
place; otherwise the pair is appended at the end. -/
def recordInsert {α : Type} (r : RecordOf α) (k : Str) (v : α) : RecordOf α :=
  if r.any (fun p => p.1 == k) then
    r.map (fun p => if p.1 == k then (k, v) else p)
  else
    r ++ [(k, v)]

/-- Property lookup on the modelled object. -/
def recordLookup {α : Type} (k : Str) (r : RecordOf α) : Option α :=
  (r.find? (fun p => p.1 == k)).map Prod.snd

/-- A DOM element: text content, id (empty when the id attribute is absent,
matching the DOM id getter) and the scoped querySelectorAll capability. -/
inductive Element : Type where
  | mk : Str → Str → (Str → List Element) → Element

def Element.textContent : Element → Str
  | .mk t _ _ => t

def Element.id : Element → Str
  | .mk _ i _ => i

def Element.queryAll : Element → Str → List Element
  | .mk _ _ q => q

/-- querySelector returns the first element matched by querySelectorAll, or
null when there is none. -/
def querySelector (e : Element) (sel : Str) : Option Element :=
  (e.queryAll sel).head?

/-- An element-to-string converter, receiving the element or null plus a
positional index (source: ElementToStringConverter). -/
abbrev Converter := Option Element → Nat → Str

/-- JavaScript String.trim on both ends. -/
def trimStr (s : Str) : Str :=
  ((s.dropWhile Char.isWhitespace).reverse.dropWhile Char.isWhitespace).reverse

/-- The global regex replace of the source, pattern hyphen followed by a
capture of one character in the class a-z: each such pair is rewritten to the
upper-cased letter; a hyphen not followed by a lowercase ASCII letter is kept
and scanning resumes at the next character. -/
def camelHyphens : Str → Str
  | [] => []
  | '-' :: c :: rest =>
    if 'a' ≤ c ∧ c ≤ 'z' then Char.toUpper c :: camelHyphens rest
    else '-' :: camelHyphens (c :: rest)
  | c :: rest => c :: camelHyphens rest

/-- Source kebabCaseToCamelCase: trim, then lower-case, then the hyphen
replacement. -/
def kebabCaseToCamelCase (str : Str) : Str :=
  camelHyphens ((trimStr str).map Char.toLower)

/-- Source textContentConverter: trimmed text content of the element, empty
string when the element is null. -/
def textContentConverter : Converter
  | none, _ => []
  | some e, _ => trimStr e.textContent

/-- The global regex replace of each maximal whitespace run by one hyphen.
The Boolean argument records whether the previous character was part of a
whitespace run already rewritten. -/
def wsRunsToHyphenAux : Bool → Str → Str
  | _, [] => []
  | inRun, c :: rest =>
    if c.isWhitespace then
      if inRun then wsRunsToHyphenAux true rest
      else '-' :: wsRunsToHyphenAux true rest
    else c :: wsRunsToHyphenAux false rest

def wsRunsToHyphen (s : Str) : Str :=
  wsRunsToHyphenAux false s

/-- The global regex replace of each plus sign by the word and. -/
def plusToAnd : Str → Str
  | [] => []
  | '+' :: rest => 'a' :: 'n' :: 'd' :: plusToAnd rest
  | c :: rest => c :: plusToAnd rest

/-- Source textContentToCamelCaseConverter: text content, whitespace runs to
hyphens, plus to and, then kebab to camel case. -/
def textContentToCamelCaseConverter : Converter :=
  fun element i =>
    kebabCaseToCamelCase (plusToAnd (wsRunsToHyphen (textContentConverter element i)))

/-- Decimal rendering of a Nat, as in a JavaScript template literal. -/
def natToStr (n : Nat) : Str :=
  (Nat.repr n).toList

/-- Source idToCamelCaseConverter: the id of the element when the element is
present (the DOM id getter never yields null), otherwise the fallback
table-index string; both run through kebabCaseToCamelCase. -/
def idToCamelCaseConverter : Converter :=
  fun element index =>
    kebabCaseToCamelCase
      (match element with
       | some e => e.id
       | none => 't' :: 'a' :: 'b' :: 'l' :: 'e' :: natToStr index)

/-- JavaScript array indexing followed by ToPropertyKey: an in-range index
yields the stored key, an out-of-range access yields undefined, which the
computed-property syntax coerces to the string undefined. -/
def jsKeyAt (keys : List Str) (i : Nat) : Str :=
  match keys[i]? with
  | some k => k
  | none => "undefined".toList

/-- Source keysAndElementsMapper: reduce over the elements with their index,
spreading the accumulated object and assigning the converted value at the key
found at the same index. -/
def keysAndElementsMapper (keys : List Str) (elements : List Element)
    (valueConverter : Converter) : Record :=
  elements.enum.foldl
    (fun acc p => recordInsert acc (jsKeyAt keys p.1) (valueConverter (some p.2) p.1))
    []

/-- The normalized option object of getTablesAsRecord after merging the
defaults with the caller overrides. -/
structure Options : Type where
  root : Element
  scopeSelector : Str
  idElementSelector : Str
  tableSelector : Str
  headerSelector : Str
  rowSelector : Str
  cellSelector : Str
  headerKeyConverter : Converter
  cellValueConverter : Converter
  tableKeyConverter : Converter
  keysAndElementsMapper : List Str → List Element → Converter → Record

/-- The default option values of the source, for a given root. -/
def defaultOptions (root : Element) : Options where
  root := root
  scopeSelector := "div.container".toList
  idElementSelector := ":scope > h2".toList
  tableSelector := ":scope > div.table-responsive > table".toList
  headerSelector := "thead th".toList
  rowSelector := "tbody tr".toList
  cellSelector := "td".toList
  headerKeyConverter := textContentToCamelCaseConverter
  cellValueConverter := textContentConverter
  tableKeyConverter := idToCamelCaseConverter
  keysAndElementsMapper := keysAndElementsMapper

/-- The headers local of convertTableToRecordArray: header cells selected in
the table, each converted with its index. -/
def headerKeys (table : Element) (options : Options) : List Str :=
  (table.queryAll options.headerSelector).enum.map
    (fun p => options.headerKeyConverter (some p.2) p.1)

/-- The row scan of convertTableToRecordArray: rows selected in the table,
each mapped to its list of data cells. -/
def rowCellLists (table : Element) (options : Options) : List (List Element) :=
  (table.queryAll options.rowSelector).map
    (fun row => row.queryAll options.cellSelector)

/-- Source convertTableToRecordArray: reduce the per-row cell lists, keeping a
row only when its cell count equals the header count, in which case the
configured mapper builds its record from the header keys and the cell values. -/
def convertTableToRecordArray (table : Element) (options : Options) : List Record :=
  (rowCellLists table options).foldl
    (fun acc cells =>
      if cells.length = (headerKeys table options).length then
        acc ++ [options.keysAndElementsMapper (headerKeys table options) cells
                  options.cellValueConverter]
      else acc)
    []

/-- The per-container scan of getTablesAsRecord: every scope container under
the root, paired by index into the derived table key (from the id element
found in the container) and the table found in the container, if any. -/
def containerEntries (options : Options) : List (Str × Option Element) :=
  (options.root.queryAll options.scopeSelector).enum.map
    (fun p =>
      (options.tableKeyConverter (querySelector p.2 options.idElementSelector) p.1,
       querySelector p.2 options.tableSelector))

/-- The final reduce of getTablesAsRecord: a container with a table assigns
its converted rows at its key, a container without a table is skipped. -/
def assembleTables (options : Options) (entries : List (Str × Option Element)) :
    RecordOf (List Record) :=
  entries.foldl
    (fun acc p =>
      match p.2 with
      | some table => recordInsert acc p.1 (convertTableToRecordArray table options)
      | none => acc)
    []

/-- Source getTablesAsRecord on normalized options. -/
def getTablesAsRecord (options : Options) : RecordOf (List Record) :=
  assembleTables options (containerEntries options)

/-- Modelled from the words of the specification for the camelCase claim: the
specification asserts that after trimming and lower-casing, each hyphen is
removed and the character that followed it upper-cased, for every hyphen
regardless of which character follows it.  This definition follows those
words and is compared against the source kebabCaseToCamelCase. -/
def specCamelHyphens : Str → Str
  | [] => []
  | '-' :: c :: rest => Char.toUpper c :: specCamelHyphens rest
  | c :: rest => c :: specCamelHyphens rest

/-- Modelled from the words of the specification: trim, lower-case, then
remove every hyphen and upper-case the following character. -/
def specKebabCaseToCamelCase (str : Str) : Str :=
  specCamelHyphens ((trimStr str).map Char.toLower)

/-! Helper lemmas about the record model. -/

theorem find?_map_replace_ne {α : Type} (r : RecordOf α) (k k' : Str) (v : α)
    (hk : k ≠ k') :
    (r.map (fun p => if p.1 == k' then (k', v) else p)).find? (fun p => p.1 == k)
      = r.find? (fun p => p.1 == k) := by
  induction r with
  | nil => rfl
  | cons a r ih =>
    rw [List.map_cons]
    by_cases ha : a.1 = k'
    · rw [if_pos (by simp [ha])]
      rw [List.find?_cons_of_neg _ (by simp [Ne.symm hk]),
        List.find?_cons_of_neg _ (by simp [ha, Ne.symm hk])]
      exact ih
    · rw [if_neg (by simp [ha])]
      by_cases hak : a.1 = k
      · rw [List.find?_cons_of_pos _ (by simp [hak]),
          List.find?_cons_of_pos _ (by simp [hak])]
      · rw [List.find?_cons_of_neg _ (by simp [hak]),
          List.find?_cons_of_neg _ (by simp [hak])]
        exact ih

theorem find?_map_replace_eq {α : Type} (r : RecordOf α) (k' : Str) (v : α)
    (h : r.any (fun p => p.1 == k') = true) :
    (r.map (fun p => if p.1 == k' then (k', v) else p)).find? (fun p => p.1 == k')
      = some (k', v) := by
  induction r with
  | nil => simp at h
  | cons a r ih =>
    rw [List.map_cons]
    by_cases ha : a.1 = k'
    · rw [if_pos (by simp [ha])]
      exact List.find?_cons_of_pos _ (by simp)
    · rw [if_neg (by simp [ha])]
      have h' : r.any (fun p => p.1 == k') = true := by
        rcases List.any_eq_true.mp h with ⟨x, hx, hpx⟩
        rcases List.mem_cons.mp hx with rfl | hx2
        · exact absurd (by simpa using hpx) ha
        · exact List.any_eq_true.mpr ⟨x, hx2, hpx⟩
      rw [List.find?_cons_of_neg _ (by simp [ha])]
      exact ih h'

theorem recordLookup_insert {α : Type} (r : RecordOf α) (k k' : Str) (v : α) :
    recordLookup k (recordInsert r k' v) = if k = k' then some v else recordLookup k r := by
  unfold recordInsert recordLookup
  by_cases hany : r.any (fun p => p.1 == k') = true
  · rw [if_pos hany]
    by_cases hk : k = k'
    · subst hk
      rw [find?_map_replace_eq r k v hany, if_pos rfl]
      rfl
    · rw [find?_map_replace_ne r k k' v hk, if_neg hk]
  · rw [if_neg hany, List.find?_append]
    by_cases hk : k = k'
    · subst hk
      have hnone : r.find? (fun p => p.1 == k) = none := by
        rw [List.find?_eq_none]
        intro x hx hpx
        exact hany (List.any_eq_true.mpr ⟨x, hx, hpx⟩)
      rw [hnone, Option.none_or, if_pos rfl,
        List.find?_cons_of_pos _ (by simp)]
      rfl
    · have hone : List.find? (fun p => p.1 == k) [(k', v)] = none := by
        rw [List.find?_cons_of_neg _ (by simp [Ne.symm hk])]
        rfl
      rw [hone, Option.or_none, if_neg hk]

theorem recordLookup_foldl_insert {α : Type} (l : List (Str × α)) (init : RecordOf α)
    (k : Str) :
    recordLookup k (l.foldl (fun acc p => recordInsert acc p.1 p.2) init)
      = match l.reverse.find? (fun p => p.1 == k) with
        | some p => some p.2
        | none => recordLookup k init := by
  induction l generalizing init with
  | nil => simp
  | cons a l ih =>
    rw [List.foldl_cons, ih, List.reverse_cons, List.find?_append]
    cases hf : l.reverse.find? (fun p => p.1 == k) with
    | some p => simp
    | none =>
      simp only [Option.none_or]
      rw [recordLookup_insert]
      by_cases hk : k = a.1
      · rw [if_pos hk, List.find?_cons_of_pos _ (by simp [hk])]
      · rw [if_neg hk, List.find?_cons_of_neg _ (by simp [Ne.symm hk])]
        rfl

theorem find?_reverse_of_last {α : Type} (l : List α) (p : α → Bool) (j : Nat) (x : α)
    (hj : l[j]? = some x) (hx : p x = true)
    (hlast : ∀ i y, j < i → l[i]? = some y → p y = false) :
    l.reverse.find? p = some x := by
  have hsplit : l = l.take (j + 1) ++ l.drop (j + 1) := (List.take_append_drop _ _).symm
  have htake : l.take (j + 1) = l.take j ++ [x] := by
    rw [List.take_succ, hj]
    rfl
  have hdrop : (l.drop (j + 1)).reverse.find? p = none := by
    rw [List.find?_eq_none]
    intro y hy
    rw [List.mem_reverse] at hy
    obtain ⟨i, hi⟩ := List.mem_iff_getElem?.mp hy
    rw [List.getElem?_drop] at hi
    have hf := hlast (j + 1 + i) y (by omega) hi
    simp [hf]
  calc l.reverse.find? p
      = ((l.take (j + 1) ++ l.drop (j + 1)).reverse).find? p := by rw [← hsplit]
    _ = ((l.drop (j + 1)).reverse ++ (l.take (j + 1)).reverse).find? p := by
        rw [List.reverse_append]
    _ = some x := by
        rw [List.find?_append, hdrop, Option.none_or, htake, List.reverse_append]
        simp [List.find?_cons, hx]

/-! Bridge lemmas between the source functions and the fold-insert form. -/

/-- The key and value computed by the mapper at each element index. -/
def mapperPairs (keys : List Str) (elements : List Element) (conv : Converter) :
    List (Str × Str) :=
  elements.enum.map (fun p => (jsKeyAt keys p.1, conv (some p.2) p.1))

theorem keysAndElementsMapper_eq_foldl (keys : List Str) (elements : List Element)
    (conv : Converter) :
    keysAndElementsMapper keys elements conv
      = (mapperPairs keys elements conv).foldl
          (fun acc q => recordInsert acc q.1 q.2) [] := by
  unfold keysAndElementsMapper mapperPairs
  rw [List.foldl_map]

/-- The key and converted row array contributed by each container that holds
a table. -/
def tablePairs (options : Options) (entries : List (Str × Option Element)) :
    List (Str × List Record) :=
  entries.filterMap
    (fun p => p.2.map (fun t => (p.1, convertTableToRecordArray t options)))

theorem assembleTables_eq_foldl (options : Options)
    (entries : List (Str × Option Element)) (acc : RecordOf (List Record)) :
    entries.foldl
      (fun acc p =>
        match p.2 with
        | some table => recordInsert acc p.1 (convertTableToRecordArray table options)
        | none => acc) acc
      = (tablePairs options entries).foldl (fun a q => recordInsert a q.1 q.2) acc := by
  induction entries generalizing acc with
  | nil => rfl
  | cons p entries ih =>
    obtain ⟨key, tbl⟩ := p
    rw [List.foldl_cons]
    cases tbl with
    | none =>
      have hp : tablePairs options ((key, none) :: entries) = tablePairs options entries := by
        simp [tablePairs, List.filterMap_cons]
      rw [hp]
      exact ih acc
    | some t =>
      have hp : tablePairs options ((key, some t) :: entries)
          = (key, convertTableToRecordArray t options) :: tablePairs options entries := by
        simp [tablePairs, List.filterMap_cons]
      rw [hp, List.foldl_cons]
      exact ih _

/-- Shared characterization used by the collision and empty-table claims: a
container holding a table, followed only by containers that hold no table or
derive a different key, determines the value at its key. -/
theorem recordLookup_getTables_of_split (options : Options)
    (pre post : List (Str × Option Element)) (k : Str) (t : Element)
    (hsplit : containerEntries options = pre ++ (k, some t) :: post)
    (hpost : ∀ p ∈ post, p.2.isSome → p.1 ≠ k) :
    recordLookup k (getTablesAsRecord options)
      = some (convertTableToRecordArray t options) := by
  unfold getTablesAsRecord assembleTables
  rw [hsplit, assembleTables_eq_foldl, recordLookup_foldl_insert]
  have hpairs : tablePairs options (pre ++ (k, some t) :: post)
      = tablePairs options pre
          ++ (k, convertTableToRecordArray t options) :: tablePairs options post := by
    simp [tablePairs, List.filterMap_append, List.filterMap_cons]
  have hfindpost : (tablePairs options post).reverse.find? (fun q => q.1 == k) = none := by
    rw [List.find?_eq_none]
    intro q hq hbq
    rw [List.mem_reverse] at hq
    have hq2 : ∃ a b, (a, b) ∈ post
        ∧ ∃ u, b = some u ∧ (a, convertTableToRecordArray u options) = q := by
      simpa [tablePairs] using hq
    obtain ⟨a, b, hab, u, hb, hqeq⟩ := hq2
    subst hb
    have hbq' : q.1 = k := by simpa using hbq
    rw [← hqeq] at hbq'
    exact hpost (a, some u) hab rfl (by simpa using hbq')
  rw [hpairs, List.reverse_append, List.reverse_cons, List.find?_append,
    List.find?_append, hfindpost, Option.none_or,
    List.find?_cons_of_pos _ (by simp)]
  rfl

/-- The reduce of convertTableToRecordArray, in filter-map form. -/
theorem foldl_ite_append {α β : Type} (p : α → Prop) [DecidablePred p] (f : α → β)
    (l : List α) (acc : List β) :
    l.foldl (fun a x => if p x then a ++ [f x] else a) acc
      = acc ++ (l.filter (fun x => decide (p x))).map f := by
  induction l generalizing acc with
  | nil => simp
  | cons x l ih =>
    rw [List.foldl_cons]
    by_cases hx : p x
    · rw [if_pos hx, ih, List.filter_cons_of_pos (by simp [hx]), List.map_cons,
        List.append_assoc]
      rfl
    · rw [if_neg hx, ih, List.filter_cons_of_neg (by simp [hx])]

/-- Every key the JavaScript indexing can produce is a stored key or the
string undefined. -/
theorem jsKeyAt_mem_or (keys : List Str) (i : Nat) :
    jsKeyAt keys i ∈ keys ∨ jsKeyAt keys i = "undefined".toList := by
  unfold jsKeyAt
  cases h : keys[i]? with
  | some k => exact Or.inl (List.getElem?_mem h)
  | none => exact Or.inr rfl

/-- The insert operation leaves the key list unchanged on overwrite and
appends the new key otherwise. -/
theorem recordInsert_map_fst {α : Type} (r : RecordOf α) (k : Str) (v : α) :
    (recordInsert r k v).map Prod.fst
      = if r.any (fun p => p.1 == k) then r.map Prod.fst
        else r.map Prod.fst ++ [k] := by
  unfold recordInsert
  by_cases h : r.any (fun p => p.1 == k) = true
  · rw [if_pos h, if_pos h, List.map_map]
    apply List.map_congr_left
    intro p hp
    by_cases hpk : p.1 = k
    · simp [Function.comp, hpk]
    · simp [Function.comp, hpk]
  · rw [if_neg h, if_neg h, List.map_append]
    rfl

/-- Inserting preserves the absence of duplicate keys. -/
theorem nodup_keys_recordInsert {α : Type} (r : RecordOf α) (k : Str) (v : α)
    (h : (r.map Prod.fst).Nodup) : ((recordInsert r k v).map Prod.fst).Nodup := by
  rw [recordInsert_map_fst]
  by_cases hany : r.any (fun p => p.1 == k) = true
  · rw [if_pos hany]
    exact h
  · rw [if_neg hany]
    refine List.Nodup.append h (List.nodup_singleton k) ?_
    intro a ha hb
    rw [List.mem_singleton] at hb
    subst hb
    obtain ⟨p, hp, hpa⟩ := List.mem_map.mp ha
    exact hany (List.any_eq_true.mpr ⟨p, hp, by simp [hpa]⟩)

/-- A record built by folding inserts from the empty object never stores a
key twice. -/
theorem nodup_keys_foldl_insert {α : Type} (l : List (Str × α)) (init : RecordOf α)
    (h : (init.map Prod.fst).Nodup) :
    ((l.foldl (fun acc p => recordInsert acc p.1 p.2) init).map Prod.fst).Nodup := by
  induction l generalizing init with
  | nil => exact h
  | cons a l ih => exact ih _ (nodup_keys_recordInsert _ _ _ h)

/-- In a record with pairwise distinct keys, a successful lookup pins down
the unique pair stored at that key. -/
theorem recordLookup_filter_singleton {α : Type} (r : RecordOf α) (k : Str) (v : α)
    (hnd : (r.map Prod.fst).Nodup) (hlook : recordLookup k r = some v) :
    r.filter (fun p => p.1 == k) = [(k, v)] := by
  induction r with
  | nil => simp [recordLookup] at hlook
  | cons a r ih =>
    rw [List.map_cons, List.nodup_cons] at hnd
    obtain ⟨a1, a2⟩ := a
    by_cases ha : a1 = k
    · subst ha
      have hv : a2 = v := by
        unfold recordLookup at hlook
        rw [List.find?_cons_of_pos _ (by simp)] at hlook
        simpa using hlook
      subst hv
      rw [List.filter_cons_of_pos (by simp)]
      have hnil : r.filter (fun p => p.1 == a1) = [] := by
        rw [List.filter_eq_nil_iff]
        intro p hp hpk
        refine absurd ?_ hnd.1
        have hpa : p.1 = a1 := by simpa using hpk
        have hmm : p.1 ∈ r.map Prod.fst := List.mem_map_of_mem Prod.fst hp
        rwa [hpa] at hmm
      rw [hnil]
    · rw [List.filter_cons_of_neg (by simp [ha])]
      apply ih hnd.2
      unfold recordLookup at hlook ⊢
      rwa [List.find?_cons_of_neg _ (by simp [ha])] at hlook

/-! Sample documents matching the default selectors, used to instantiate the
claims on concrete inputs. -/

/-- A leaf element with the given text content and no sub-elements. -/
def sampleText (t : String) : Element :=
  .mk t.toList [] (fun _ => [])

/-- A heading element carrying an id attribute. -/
def sampleH2 (i : String) : Element :=
  .mk [] i.toList (fun _ => [])

/-- A data cell with the given text content. -/
def sampleCell (t : String) : Element :=
  .mk t.toList [] (fun _ => [])

/-- A table row answering the default cell selector. -/
def sampleRow (tds : List Element) : Element :=
  .mk [] [] (fun sel => if sel = "td".toList then tds else [])

/-- A table answering the default header and row selectors. -/
def sampleTable (ths rows : List Element) : Element :=
  .mk [] []
    (fun sel =>
      if sel = "thead th".toList then ths
      else if sel = "tbody tr".toList then rows
      else [])

/-- A scope container answering the default id-element and table selectors. -/
def sampleContainer (h2s tables : List Element) : Element :=
  .mk [] []
    (fun sel =>
      if sel = ":scope > h2".toList then h2s
      else if sel = ":scope > div.table-responsive > table".toList then tables
      else [])

/-- A root element answering the default scope selector. -/
def sampleRoot (containers : List Element) : Element :=
  .mk [] [] (fun sel => if sel = "div.container".toList then containers else [])

/-! Claim C1. -/

/-- Claim C1, counterexample: when the element sequence is longer than the key
sequence, keysAndElementsMapper does construct an entry for an out-of-range
key, namely under the string undefined, which JavaScript produces by coercing
the undefined key lookup to a property key.  So it is false that the mapping
contains entries only for the paired indices below the key count. -/
theorem C1_counterexample :
    ¬ (∀ (keys : List Str) (elements : List Element) (conv : Converter),
        keys.length < elements.length →
        ∀ k, (recordLookup k (keysAndElementsMapper keys elements conv)).isSome = true
          → k ∈ keys) := by
  intro h
  have h2 := h ["a".toList] [sampleCell "x", sampleCell "y"] textContentConverter
    (by decide) ("undefined".toList) (by rfl)
  exact absurd h2 (by decide)

/-- Claim C1 (amended): when the element sequence is longer than the key
sequence, the mapper produces an entry for every stored key at a paired
index below the key count; in addition the mapping contains exactly one
entry under the key undefined, the string coercion of the out-of-range key
lookup, and that entry holds the conversion of the last, unpaired, element
at its index; every key present in the mapping is a stored key or the
string undefined. -/
theorem C1_amended_mapper (keys : List Str) (elements : List Element)
    (conv : Converter) (hlen : keys.length < elements.length)
    (e : Element) (he : elements[elements.length - 1]? = some e) :
    (∀ i k, i < keys.length → keys[i]? = some k →
        (recordLookup k (keysAndElementsMapper keys elements conv)).isSome = true)
      ∧ (keysAndElementsMapper keys elements conv).filter
            (fun p => p.1 == "undefined".toList)
          = [("undefined".toList, conv (some e) (elements.length - 1))]
      ∧ (∀ k, (recordLookup k (keysAndElementsMapper keys elements conv)).isSome = true
          → k ∈ keys ∨ k = "undefined".toList) := by
  refine ⟨?_, ?_, ?_⟩
  · intro i k hi hk
    rw [keysAndElementsMapper_eq_foldl, recordLookup_foldl_insert]
    have hie : i < elements.length := Nat.lt_trans hi hlen
    obtain ⟨el, hel⟩ : ∃ el, elements[i]? = some el :=
      ⟨_, List.getElem?_eq_getElem hie⟩
    have hpair : (mapperPairs keys elements conv)[i]?
        = some (jsKeyAt keys i, conv (some el) i) := by
      unfold mapperPairs
      rw [List.getElem?_map, List.getElem?_enum, hel]
      rfl
    have hmem : (jsKeyAt keys i, conv (some el) i)
        ∈ (mapperPairs keys elements conv).reverse := by
      rw [List.mem_reverse]
      exact List.getElem?_mem hpair
    have hkeyi : jsKeyAt keys i = k := by
      unfold jsKeyAt
      rw [hk]
    cases hf : (mapperPairs keys elements conv).reverse.find? (fun p => p.1 == k) with
    | some q => rfl
    | none =>
      exact absurd (by simp [hkeyi]) (List.find?_eq_none.mp hf _ hmem)
  · have hnm : keys.length ≤ elements.length - 1 := by omega
    have hkeyu : jsKeyAt keys (elements.length - 1) = "undefined".toList := by
      unfold jsKeyAt
      rw [List.getElem?_eq_none hnm]
    have hfind : (mapperPairs keys elements conv).reverse.find?
        (fun p => p.1 == "undefined".toList)
        = some ("undefined".toList, conv (some e) (elements.length - 1)) := by
      apply find?_reverse_of_last _ _ (elements.length - 1)
      · unfold mapperPairs
        rw [List.getElem?_map, List.getElem?_enum, he]
        simp [hkeyu]
      · simp
      · intro l y hl hy
        have hlen2 : (mapperPairs keys elements conv).length = elements.length := by
          unfold mapperPairs
          rw [List.length_map, List.enum_length]
        rw [List.getElem?_eq_none (by rw [hlen2]; omega)] at hy
        cases hy
    rw [keysAndElementsMapper_eq_foldl]
    apply recordLookup_filter_singleton
    · exact nodup_keys_foldl_insert _ _ (by simp)
    · rw [recordLookup_foldl_insert, hfind]
  · intro k h
    rw [keysAndElementsMapper_eq_foldl, recordLookup_foldl_insert] at h
    cases hf : (mapperPairs keys elements conv).reverse.find? (fun p => p.1 == k) with
    | none => rw [hf] at h; simp [recordLookup] at h
    | some q =>
      have hq1 : q.1 = k := by simpa using List.find?_some hf
      have hqmem : q ∈ mapperPairs keys elements conv := by
        have hm := List.mem_of_find?_eq_some hf
        rwa [List.mem_reverse] at hm
      unfold mapperPairs at hqmem
      obtain ⟨pr, hpr, hfq⟩ := List.mem_map.mp hqmem
      have hkey : jsKeyAt keys pr.1 = k := by
        rw [← hq1, ← hfq]
      rcases jsKeyAt_mem_or keys pr.1 with hm | hu
      · exact Or.inl (hkey ▸ hm)
      · exact Or.inr (by rw [← hkey, hu])

theorem C1_amended_witness :
    (recordLookup ("a".toList)
        (keysAndElementsMapper ["a".toList] [sampleCell "x", sampleCell "y"]
          textContentConverter)).isSome = true
      ∧ (keysAndElementsMapper ["a".toList] [sampleCell "x", sampleCell "y"]
            textContentConverter).filter (fun p => p.1 == "undefined".toList)
          = [("undefined".toList, textContentConverter (some (sampleCell "y")) 1)] :=
  ⟨(C1_amended_mapper ["a".toList] [sampleCell "x", sampleCell "y"] textContentConverter
      (by decide) (sampleCell "y") (by rfl)).1 0 ("a".toList) (by decide) (by rfl),
   (C1_amended_mapper ["a".toList] [sampleCell "x", sampleCell "y"] textContentConverter
      (by decide) (sampleCell "y") (by rfl)).2.1⟩

/-! Claim C2. -/

def c2Table : Element := sampleTable [] []

def c2ContA : Element := sampleContainer [sampleH2 "most-common"] [c2Table]

def c2ContB : Element := sampleContainer [sampleH2 "latest"] [c2Table]

def c2ContNoId : Element := sampleContainer [] [c2Table]

def c2Root : Element := sampleRoot [c2ContA, c2ContB, c2ContNoId]

/-- Claim C2: idToCamelCaseConverter returns the kebab-to-camelCase transform
of the id of the id-bearing sub-element when that sub-element is present, and
the transform of the string table followed by the zero-based container index
when it is absent; in particular a container with no id-bearing sub-element
at position 2 derives the table key table2, also through the extraction
pipeline on a concrete document. -/
theorem C2_table_key_converter :
    (∀ e i, idToCamelCaseConverter (some e) i = kebabCaseToCamelCase e.id)
      ∧ (∀ i, idToCamelCaseConverter none i
          = kebabCaseToCamelCase ('t' :: 'a' :: 'b' :: 'l' :: 'e' :: natToStr i))
      ∧ idToCamelCaseConverter none 2 = "table2".toList
      ∧ ((containerEntries (defaultOptions c2Root)).map Prod.fst)[2]?
          = some ("table2".toList) := by
  exact ⟨fun e i => rfl, fun i => rfl, by decide, by decide⟩

/-! Claim C3. -/

/-- Claim C3, counterexample: the source kebabCaseToCamelCase leaves a hyphen
followed by a character outside the class a-z unchanged, while the claimed
behavior removes every hyphen and upper-cases the following character; the
two differ on the input x-1. -/
theorem C3_counterexample :
    kebabCaseToCamelCase ("x-1".toList) ≠ specKebabCaseToCamelCase ("x-1".toList)
      ∧ kebabCaseToCamelCase ("x-1".toList) = "x-1".toList
      ∧ specKebabCaseToCamelCase ("x-1".toList) = "x1".toList := by
  decide

/-- Claim C3 (amended): kebabCaseToCamelCase first trims and lower-cases the
whole string, then removes each hyphen that is directly followed by a
lowercase ASCII letter and upper-cases that letter; a hyphen followed by any
other character is left unchanged. -/
theorem C3_kebab_amended :
    (∀ s, kebabCaseToCamelCase s = camelHyphens ((trimStr s).map Char.toLower))
      ∧ (∀ c rest, ('a' ≤ c ∧ c ≤ 'z')
          → camelHyphens ('-' :: c :: rest) = Char.toUpper c :: camelHyphens rest)
      ∧ (∀ c rest, ¬('a' ≤ c ∧ c ≤ 'z')
          → camelHyphens ('-' :: c :: rest) = '-' :: camelHyphens (c :: rest))
      ∧ kebabCaseToCamelCase ("Os-2-Browser".toList) = "os-2Browser".toList := by
  refine ⟨fun s => rfl, ?_, ?_, by decide⟩
  · intro c rest h
    show (if 'a' ≤ c ∧ c ≤ 'z' then Char.toUpper c :: camelHyphens rest
          else '-' :: camelHyphens (c :: rest)) = _
    rw [if_pos h]
  · intro c rest h
    show (if 'a' ≤ c ∧ c ≤ 'z' then Char.toUpper c :: camelHyphens rest
          else '-' :: camelHyphens (c :: rest)) = _
    rw [if_neg h]

theorem C3_kebab_amended_witness :
    camelHyphens ('-' :: 'b' :: []) = ['B']
      ∧ camelHyphens ('-' :: '1' :: []) = ['-', '1'] :=
  ⟨C3_kebab_amended.2.1 'b' [] (by decide),
   (C3_kebab_amended.2.2.1 '1' [] (by decide)).trans (by decide)⟩

/-! Claim C4. -/

/-- Claim C4: convertTableToRecordArray returns exactly the rows whose cell
count equals the header count, each mapped to its record by the configured
mapper, in document order with no gaps; rows with a differing cell count are
absent with no error and no partial record; hence when every row matches the
header count the output record count equals the input row count. -/
theorem C4_row_filtering (table : Element) (options : Options) :
    convertTableToRecordArray table options
      = ((rowCellLists table options).filter
          (fun cells => decide (cells.length = (headerKeys table options).length))).map
          (fun cells => options.keysAndElementsMapper (headerKeys table options) cells
            options.cellValueConverter)
      ∧ ((∀ cells ∈ rowCellLists table options,
            cells.length = (headerKeys table options).length)
          → (convertTableToRecordArray table options).length
              = (rowCellLists table options).length) := by
  have hmain : convertTableToRecordArray table options
      = ((rowCellLists table options).filter
          (fun cells => decide (cells.length = (headerKeys table options).length))).map
          (fun cells => options.keysAndElementsMapper (headerKeys table options) cells
            options.cellValueConverter) := by
    unfold convertTableToRecordArray
    rw [foldl_ite_append]
    rfl
  refine ⟨hmain, fun hall => ?_⟩
  rw [hmain, List.length_map]
  have hfull : (rowCellLists table options).filter
      (fun cells => decide (cells.length = (headerKeys table options).length))
      = rowCellLists table options := by
    rw [List.filter_eq_self]
    intro a ha
    simpa using hall a ha
  rw [hfull]

def c4Table : Element :=
  sampleTable [sampleText "Device"]
    [sampleRow [sampleCell "iPod"], sampleRow [sampleCell "iPad"]]

def c4Options : Options := defaultOptions (sampleRoot [])

theorem C4_witness :
    (convertTableToRecordArray c4Table c4Options).length
      = (rowCellLists c4Table c4Options).length := by
  refine (C4_row_filtering c4Table c4Options).2 ?_
  intro cells hc
  have hrows : rowCellLists c4Table c4Options
      = [[sampleCell "iPod"], [sampleCell "iPad"]] := rfl
  rw [hrows] at hc
  rcases List.mem_cons.mp hc with rfl | hc2
  · rfl
  · rcases List.mem_cons.mp hc2 with rfl | hc3
    · rfl
    · exact absurd hc3 (List.not_mem_nil _)

/-! Claim C5. -/

def c5TableA : Element :=
  sampleTable [sampleText "H"] [sampleRow [sampleCell "first"]]

def c5TableB : Element :=
  sampleTable [sampleText "H"] [sampleRow [sampleCell "second"]]

def c5ContA : Element := sampleContainer [sampleH2 "dup-key"] [c5TableA]

def c5ContB : Element := sampleContainer [sampleH2 "dup-key"] [c5TableB]

def c5Root : Element := sampleRoot [c5ContA, c5ContB]

def c5Options : Options := defaultOptions c5Root

/-- Claim C5: when an earlier container derives the same key as a later
container holding a table, and no container after the later one contributes
that key, the extraction result maps the key to the row records of the later
container only: last write wins in document order of containers. -/
theorem C5_last_write_wins (options : Options) (pre post : List (Str × Option Element))
    (k : Str) (t t0 : Element)
    (_hdup : (k, some t0) ∈ pre)
    (hsplit : containerEntries options = pre ++ (k, some t) :: post)
    (hpost : ∀ p ∈ post, p.2.isSome = true → p.1 ≠ k) :
    recordLookup k (getTablesAsRecord options)
      = some (convertTableToRecordArray t options) :=
  recordLookup_getTables_of_split options pre post k t hsplit hpost

theorem C5_witness :
    recordLookup ("dupKey".toList) (getTablesAsRecord c5Options)
      = some (convertTableToRecordArray c5TableB c5Options) :=
  C5_last_write_wins c5Options [("dupKey".toList, some c5TableA)] []
    ("dupKey".toList) c5TableB c5TableA (List.mem_singleton.mpr rfl) (by rfl)
    (fun p hp => absurd hp (List.not_mem_nil p))

/-! Claim C6. -/

def c6ElDesktop : Element := sampleText "Most Common Desktop"

def c6ElBrowser : Element := sampleText "OS + Browser"

/-- Claim C6: textContentToCamelCaseConverter applies the text content
converter, replaces each whitespace run by one hyphen, replaces each plus
sign by the word and, then applies the kebab-to-camelCase transform; in
particular the label Most Common Desktop maps to mostCommonDesktop and the
label OS + Browser maps to osAndBrowser. -/
theorem C6_label_converter :
    (∀ element i, textContentToCamelCaseConverter element i
        = kebabCaseToCamelCase (plusToAnd (wsRunsToHyphen (textContentConverter element i))))
      ∧ textContentToCamelCaseConverter (some c6ElDesktop) 0 = "mostCommonDesktop".toList
      ∧ textContentToCamelCaseConverter (some c6ElBrowser) 0 = "osAndBrowser".toList := by
  exact ⟨fun e i => rfl, by decide, by decide⟩

/-! Claim C7. -/

/-- Claim C7: a scope container in which the table selector finds no table
contributes nothing to getTablesAsRecord: the result equals the assembly of
the remaining container entries, with no entry added for the skipped
container and no error, the rest of the result unaffected. -/
theorem C7_container_skipped (options : Options)
    (pre post : List (Str × Option Element)) (k : Str)
    (hsplit : containerEntries options = pre ++ (k, none) :: post) :
    getTablesAsRecord options = assembleTables options (pre ++ post) := by
  unfold getTablesAsRecord
  rw [hsplit]
  unfold assembleTables
  rw [List.foldl_append, List.foldl_append, List.foldl_cons]

def c7Table : Element := sampleTable [] []

def c7ContNoTable : Element := sampleContainer [sampleH2 "first"] []

def c7ContWith : Element := sampleContainer [sampleH2 "second"] [c7Table]

def c7Root : Element := sampleRoot [c7ContNoTable, c7ContWith]

def c7Options : Options := defaultOptions c7Root

theorem C7_witness :
    getTablesAsRecord c7Options
      = assembleTables c7Options ([] ++ [("second".toList, some c7Table)]) :=
  C7_container_skipped c7Options [] [("second".toList, some c7Table)]
    ("first".toList) (by rfl)

/-! Claim C8. -/

/-- Claim C8: when the header key sequence contains duplicate keys, the
record built by keysAndElementsMapper maps each duplicated key to the value
converted from the last cell paired with that key, with no error and no
rejection: last cell wins on overwrite. -/
theorem C8_duplicate_keys_last_wins (keys : List Str) (elements : List Element)
    (conv : Converter) (k : Str) (i j : Nat) (e : Element)
    (_hij : i < j) (_hi : jsKeyAt keys i = k)
    (hj : elements[j]? = some e) (hjk : jsKeyAt keys j = k)
    (hlast : ∀ l, j < l → l < elements.length → jsKeyAt keys l ≠ k) :
    recordLookup k (keysAndElementsMapper keys elements conv)
      = some (conv (some e) j) := by
  rw [keysAndElementsMapper_eq_foldl, recordLookup_foldl_insert]
  have hfind : (mapperPairs keys elements conv).reverse.find? (fun p => p.1 == k)
      = some (k, conv (some e) j) := by
    apply find?_reverse_of_last _ _ j
    · unfold mapperPairs
      rw [List.getElem?_map, List.getElem?_enum, hj]
      simp [hjk]
    · simp
    · intro l y hl hy
      unfold mapperPairs at hy
      rw [List.getElem?_map, List.getElem?_enum] at hy
      cases hel : elements[l]? with
      | none => rw [hel] at hy; simp at hy
      | some el =>
        rw [hel] at hy
        simp only [Option.map_some'] at hy
        have hllen : l < elements.length := (List.getElem?_eq_some.mp hel).1
        have hpair := Option.some_inj.mp hy
        have hy1 : y.1 = jsKeyAt keys l := by rw [← hpair]
        simp [hy1, hlast l hl hllen]
  rw [hfind]

theorem C8_witness :
    recordLookup ("a".toList)
      (keysAndElementsMapper ["a".toList, "a".toList]
        [sampleCell "x", sampleCell "y"] textContentConverter)
      = some (textContentConverter (some (sampleCell "y")) 1) :=
  C8_duplicate_keys_last_wins ["a".toList, "a".toList]
    [sampleCell "x", sampleCell "y"] textContentConverter ("a".toList) 0 1
    (sampleCell "y") (by decide) (by rfl) (by rfl) (by rfl)
    (by intro l hl hll; simp at hll; omega)

/-! Claim C9. -/

/-- Claim C9: the three default converters are total functions from an
element-or-null and an index to a string, so in the model they never fail and
always yield a string; the text content converter yields the empty string on
a null element, and so does the label converter built on it. -/
theorem C9_converters_total :
    (∀ element i, ∃ s : Str, textContentConverter element i = s)
      ∧ (∀ element i, ∃ s : Str, textContentToCamelCaseConverter element i = s)
      ∧ (∀ element i, ∃ s : Str, idToCamelCaseConverter element i = s)
      ∧ (∀ i, textContentConverter none i = [])
      ∧ (∀ i, textContentToCamelCaseConverter none i = []) := by
  exact ⟨fun e i => ⟨_, rfl⟩, fun e i => ⟨_, rfl⟩, fun e i => ⟨_, rfl⟩,
    fun i => rfl, fun i => rfl⟩

/-! Claim C10. -/

/-- Claim C10: a container in which a table is found always contributes an
entry at its derived key, whose value is an array; when every row of that
table is dropped for a cell-count mismatch, including the case of no rows at
all, the key maps to the empty array rather than being omitted. -/
theorem C10_empty_rows_entry (options : Options)
    (pre post : List (Str × Option Element)) (k : Str) (t : Element)
    (hsplit : containerEntries options = pre ++ (k, some t) :: post)
    (hpost : ∀ p ∈ post, p.2.isSome = true → p.1 ≠ k)
    (hdrop : ∀ cells ∈ rowCellLists t options,
        cells.length ≠ (headerKeys t options).length) :
    recordLookup k (getTablesAsRecord options) = some [] := by
  have h := recordLookup_getTables_of_split options pre post k t hsplit hpost
  have hempty : convertTableToRecordArray t options = [] := by
    unfold convertTableToRecordArray
    rw [foldl_ite_append]
    have hnil : (rowCellLists t options).filter
        (fun cells => decide (cells.length = (headerKeys t options).length)) = [] := by
      rw [List.filter_eq_nil_iff]
      intro a ha
      simpa using hdrop a ha
    rw [hnil]
    rfl
  rw [h, hempty]

def c10Table : Element :=
  sampleTable [sampleText "H"] [sampleRow [sampleCell "a", sampleCell "b"]]

def c10Cont : Element := sampleContainer [sampleH2 "only"] [c10Table]

def c10Root : Element := sampleRoot [c10Cont]

def c10Options : Options := defaultOptions c10Root

theorem C10_witness :
    recordLookup ("only".toList) (getTablesAsRecord c10Options) = some [] :=
  C10_empty_rows_entry c10Options [] [] ("only".toList) c10Table (by rfl)
    (fun p hp => absurd hp (List.not_mem_nil p))
    (by
      intro cells hc
      have hrows : rowCellLists c10Table c10Options
          = [[sampleCell "a", sampleCell "b"]] := rfl
      rw [hrows] at hc
      rcases List.mem_cons.mp hc with rfl | hc2
      · decide
      · exact absurd hc2 (List.not_mem_nil _))

end UAMJson
